import Mathlib

/-!
Verification of the question-and-answer core of this repository
(src/qna/src/question_and_answer.ts): the feature-construction pipeline
(sliding-window tokenization) and the answer decoder (logits to ranked
answer spans).  The external collaborators (the BERT tokenizer and the
model execution) are modelled as parameters: a Tokenizer record of pure
functions and, for the model, the per-feature logit arrays handed to the
decoder.  Logits are modelled as rationals; the decoding algorithm only
compares and adds them.
-/

namespace QnA

set_option maxRecDepth 100000

/-! Module constants of question_and_answer.ts (lines 23-32). -/

def INPUT_SIZE : Nat := 384
def MAX_ANSWER_LEN : Nat := 32
def MAX_QUERY_LEN : Nat := 64
def MAX_SEQ_LEN : Nat := 384
def PREDICT_ANSWER_NUM : Nat := 5
def OUTPUT_OFFSET : Nat := 1
def NO_ANSWER_THRESHOLD : ℚ := 4.3980759382247925

/-! String primitives used by the source.  JavaScript strings are modelled
as Lean strings; the relevant operations (trim, slice, global replace of
the question-mark character) are reproduced on the character list. -/

/-- Whitespace set of JavaScript String.prototype.trim
(WhiteSpace and LineTerminator code points). -/
def isWS (c : Char) : Bool :=
  c.toNat = 9 || c.toNat = 10 || c.toNat = 11 || c.toNat = 12 || c.toNat = 13 ||
  c.toNat = 32 || c.toNat = 0xa0 || c.toNat = 0x1680 ||
  (0x2000 ≤ c.toNat && c.toNat ≤ 0x200a) ||
  c.toNat = 0x2028 || c.toNat = 0x2029 || c.toNat = 0x202f ||
  c.toNat = 0x205f || c.toNat = 0x3000 || c.toNat = 0xfeff

def trimList (l : List Char) : List Char :=
  ((l.dropWhile isWS).reverse.dropWhile isWS).reverse

/-- Model of JavaScript String.prototype.trim. -/
def jsTrim (s : String) : String := ⟨trimList s.data⟩

/-- Model of JavaScript String.prototype.slice for nonnegative bounds
(the source only slices with nonnegative indices). -/
def jsSlice (s : String) (a b : Nat) : String := ⟨(s.data.drop a).take (b - a)⟩

/-- Model of query.replace with the global question-mark pattern and an
empty replacement (line 113): every question-mark character is removed. -/
def stripQuestionMarks (s : String) : String := ⟨s.data.filter (fun c => c ≠ '?')⟩

/-- Lines 113-115: strip question marks, trim, append one question mark. -/
def normalizeQuery (q : String) : String := jsTrim (stripQuestionMarks q) ++ "?"

/-! The external tokenizer collaborator (bert_tokenizer, not part of the
verified source): a record of its two pure operations plus the two
reserved special-token ids it exports.  Token mirrors the record
consumed by convertBack: a text and the character index where it starts. -/

structure Token where
  text : String
  index : Nat
  deriving DecidableEq, Repr

instance : Inhabited Token := ⟨⟨"", 0⟩⟩

structure Tokenizer where
  tokenize : String → List Nat
  processInput : String → List Token

/-- Special-token ids exported by the external tokenizer module. -/
def CLS_INDEX : Nat := 101

def SEP_INDEX : Nat := 102

/-- The two error kinds the source throws (lines 118-121 and 217-221). -/
inductive QnAError where
  | InvalidInput
  | InputTooLong
  deriving DecidableEq, Repr

instance {ε α : Type} [DecidableEq ε] [DecidableEq α] : DecidableEq (Except ε α) :=
  fun a b =>
    match a, b with
    | .error x, .error y =>
      if h : x = y then .isTrue (by rw [h]) else .isFalse (fun hc => h (Except.error.inj hc))
    | .ok x, .ok y =>
      if h : x = y then .isTrue (by rw [h]) else .isFalse (fun hc => h (Except.ok.inj hc))
    | .error _, .ok _ => .isFalse (fun hc => Except.noConfusion hc)
    | .ok _, .error _ => .isFalse (fun hc => Except.noConfusion hc)

structure Feature where
  inputIds : List Nat
  inputMask : List Nat
  segmentIds : List Nat
  origTokens : List Token
  tokenToOrigMap : List (Nat × Nat)
  deriving DecidableEq, Repr

instance : Inhabited Feature := ⟨⟨[], [], [], [], []⟩⟩

/-- A JavaScript number-keyed object used as a map: modelled as the list of
key-value pairs in insertion order (keys are distinct in the source). -/
def mapLookup (m : List (Nat × Nat)) (k : Nat) : Option Nat :=
  (m.find? (fun p => p.1 = k)).map (fun p => p.2)

/-- Truthiness of the JavaScript lookup tokenToOrigMap[k]: a missing key
yields undefined (falsy) and the number 0 is also falsy. -/
def truthyLookup (m : List (Nat × Nat)) (k : Nat) : Bool :=
  match mapLookup m k with
  | some v => v ≠ 0
  | none => false

/-- Candidate span (decoder-internal).  Source fields are start and end;
the second field is named stop here because end is a Lean keyword. -/
structure AnswerIndex where
  start : Nat
  stop : Nat
  score : ℚ
  deriving DecidableEq, Repr

structure Answer where
  text : String
  startIndex : Nat
  endIndex : Nat
  score : ℚ
  context : String
  id : Option String
  deriving DecidableEq, Repr

instance : Inhabited Answer := ⟨⟨"", 0, 0, 0, "", none⟩⟩

/-! Feature construction (process, lines 109-188). -/

/-- Lines 124-134: sub-tokenize each original token; parallel array of the
original-token index of every passage sub-word. -/
def tokenToOrigIndexOf (tk : Tokenizer) (origTokens : List Token) : List Nat :=
  origTokens.enum.flatMap (fun p => (tk.tokenize p.2.text).map (fun _ => p.1))

/-- Lines 124-134: the flattened passage sub-word sequence. -/
def allDocTokensOf (tk : Tokenizer) (origTokens : List Token) : List Nat :=
  origTokens.flatMap (fun t => tk.tokenize t.text)

/-- The sliding-window loop of lines 142-154, producing (start, length)
spans.  The loop is written with explicit fuel so that the definition
is structurally recursive (hence kernel-computable); docSpans enters
with fuel n + 1, which is never exhausted because every iteration with
a positive window budget and stride advances startOffset by at least
one.  (With a zero budget the source loop would not terminate; the only
call site, with maxContextLen at least 317 and stride 128, never
produces that.) -/
def docSpansGo (maxContextLen docStride n : Nat) : Nat → Nat → List (Nat × Nat)
  | 0, _ => []
  | fuel + 1, startOffset =>
    if startOffset < n then
      (startOffset, min (n - startOffset) maxContextLen) ::
        (if startOffset + min (n - startOffset) maxContextLen = n then []
         else docSpansGo maxContextLen docStride n fuel
           (startOffset + min (min (n - startOffset) maxContextLen) docStride))
    else []

def docSpans (maxContextLen docStride n startOffset : Nat) : List (Nat × Nat) :=
  docSpansGo maxContextLen docStride n (n + 1) startOffset

/-- Lines 156-186: assemble one feature for one window.  The source pushes
the classification marker, the query tokens, a separator, the window
tokens and a final separator; after pushing the window token of offset i
the running length tokens.length equals queryTokens.length + 3 + i, which
is the key recorded into tokenToOrigMap. -/
def buildFeature (queryTokens allDocTokens tokenToOrigIndex : List Nat)
    (origTokens : List Token) (maxSeqLen : Nat) (span : Nat × Nat) : Feature :=
  let q := queryTokens.length
  let windowTokens := (allDocTokens.drop span.1).take span.2
  let tokens := CLS_INDEX :: (queryTokens ++ SEP_INDEX :: (windowTokens ++ [SEP_INDEX]))
  let segmentIds := 0 :: (queryTokens.map (fun _ => 0) ++
      0 :: (windowTokens.map (fun _ => 1) ++ [1]))
  let tokenToOrigMap := (List.range span.2).map
      (fun i => (q + 3 + i, tokenToOrigIndex.getD (span.1 + i) 0))
  let pad := maxSeqLen - tokens.length
  { inputIds := tokens ++ List.replicate pad 0
    inputMask := tokens.map (fun _ => 1) ++ List.replicate pad 0
    segmentIds := segmentIds ++ List.replicate pad 0
    origTokens := origTokens
    tokenToOrigMap := tokenToOrigMap }

/-- Lines 109-188: process.  Normalizes the query, rejects an overlong
tokenized query, tokenizes the trimmed context, slides the window and
builds one feature per window. -/
def process (tk : Tokenizer) (query context : String)
    (maxQueryLen maxSeqLen : Nat) (docStride : Nat := 128) :
    Except QnAError (List Feature) :=
  let queryTokens := tk.tokenize (normalizeQuery query)
  if queryTokens.length > maxQueryLen then
    .error .InputTooLong
  else
    let origTokens := tk.processInput (jsTrim context)
    let tokenToOrigIndex := tokenToOrigIndexOf tk origTokens
    let allDocTokens := allDocTokensOf tk origTokens
    let maxContextLen := maxSeqLen - queryTokens.length - 3
    let spans := docSpans maxContextLen docStride allDocTokens.length 0
    .ok (spans.map
      (buildFeature queryTokens allDocTokens tokenToOrigIndex origTokens maxSeqLen))

/-! Answer decoding (lines 265-358).  A JavaScript stable sort with the
comparator on scores is modelled by insertion sort under the reflexive
descending-score relation: any two stable sorts under the same total
preorder agree, so this is the same function. -/

/-- Descending order on the logit component, used by getBestIndex. -/
def logitGE (a b : Nat × ℚ) : Prop := b.2 ≤ a.2

instance : DecidableRel logitGE := fun a b => inferInstanceAs (Decidable (b.2 ≤ a.2))

/-- Descending order on candidate scores, used by getBestAnswers and
findAnswers. -/
def scoreGE (a b : AnswerIndex) : Prop := b.score ≤ a.score

instance : DecidableRel scoreGE := fun a b => inferInstanceAs (Decidable (b.score ≤ a.score))

/-- Descending order on answer scores, used by the global merge. -/
def answerScoreGE (a b : Answer) : Prop := b.score ≤ a.score

instance : DecidableRel answerScoreGE := fun a b => inferInstanceAs (Decidable (b.score ≤ a.score))

/-- Lines 323-337: getBestIndex.  Pairs every position below MAX_SEQ_LEN
with its logit, sorts by descending logit (stable), and returns the first
PREDICT_ANSWER_NUM positions. -/
def getBestIndex (logits : Nat → ℚ) : List Nat :=
  let tmpList := (List.range MAX_SEQ_LEN).map (fun i => (i, logits i))
  let sorted := List.insertionSort logitGE tmpList
  (sorted.take PREDICT_ANSWER_NUM).map (fun p => p.1)

/-- Lines 339-358: convertBack.  The map lookups are total here because
every call site passes keys the candidate filter has already checked;
the getD defaults are never used on those calls. -/
def convertBack (origTokens : List Token) (m : List (Nat × Nat))
    (start stop : Nat) (context : String) : String × Nat × Nat :=
  let shiftedStart := start + OUTPUT_OFFSET
  let shiftedEnd := stop + OUTPUT_OFFSET
  let startIndex := (mapLookup m shiftedStart).getD 0
  let endIndex := (mapLookup m shiftedEnd).getD 0
  let startCharIndex := (origTokens.getD startIndex default).index
  let endCharIndex :=
    if endIndex < origTokens.length - 1 then
      (origTokens.getD (endIndex + 1) default).index - 1
    else
      (origTokens.getD endIndex default).index +
        (origTokens.getD endIndex default).text.length
  (jsTrim (jsSlice context startCharIndex (endCharIndex + 1)),
    startCharIndex, endCharIndex)

/-- Lines 279-291 of getBestAnswers: the candidate cross product, filtered
by the truthiness of both shifted map lookups, end at or after start, and
span length below MAX_ANSWER_LEN; survivors are scored with the sum of
the two logits. -/
def origResultsOf (startLogits endLogits : Nat → ℚ)
    (tokenToOrigMap : List (Nat × Nat)) : List AnswerIndex :=
  let startIndexes := getBestIndex startLogits
  let endIndexes := getBestIndex endLogits
  startIndexes.flatMap (fun start =>
    endIndexes.filterMap (fun stop =>
      if truthyLookup tokenToOrigMap (start + OUTPUT_OFFSET) &&
         truthyLookup tokenToOrigMap (stop + OUTPUT_OFFSET) &&
         decide (stop ≥ start) && decide (stop - start + 1 < MAX_ANSWER_LEN) then
        some ⟨start, stop, startLogits start + endLogits stop⟩
      else none))

/-- Lines 293-319 of getBestAnswers: sort candidates by descending score
and walk the prefix that is both within the first PREDICT_ANSWER_NUM
positions and at or above NO_ANSWER_THRESHOLD (the source loop breaks at
the first violation of either). -/
def retainedOf (origResults : List AnswerIndex) : List AnswerIndex :=
  ((List.insertionSort scoreGE origResults).take PREDICT_ANSWER_NUM).takeWhile
    (fun r => decide (NO_ANSWER_THRESHOLD ≤ r.score))

/-- Lines 300-318: one retained candidate becomes one Answer; the start
zero branch emits the empty no-answer sentinel. -/
def answerOfCandidate (origTokens : List Token) (tokenToOrigMap : List (Nat × Nat))
    (context : String) (id : Option String) (r : AnswerIndex) : Answer :=
  if r.start > 0 then
    let c := convertBack origTokens tokenToOrigMap r.start r.stop context
    { text := c.1, startIndex := c.2.1, endIndex := c.2.2,
      score := r.score, context := context, id := id }
  else
    { text := "", startIndex := 0, endIndex := 0,
      score := r.score, context := context, id := id }

/-- Lines 265-321: getBestAnswers.  The docIndex parameter exists in the
source signature but is unused by its body. -/
def getBestAnswers (startLogits endLogits : Nat → ℚ) (origTokens : List Token)
    (tokenToOrigMap : List (Nat × Nat)) (context : String)
    (docIndex : Nat := 0) (id : Option String := none) : List Answer :=
  let _ := docIndex
  (retainedOf (origResultsOf startLogits endLogits tokenToOrigMap)).map
    (answerOfCandidate origTokens tokenToOrigMap context id)

/-- Lines 216-263: findAnswers.  The model execution is the external
collaborator: modelStart and modelEnd give, for each feature index, the
per-position logits it returned for that batch row.  Absent inputs are
the JavaScript null and undefined, modelled by none. -/
def findAnswers (tk : Tokenizer) (modelStart modelEnd : Nat → Nat → ℚ)
    (question context : Option String) (id : Option String := none) :
    Except QnAError (List Answer) :=
  match question, context with
  | some q, some ctx =>
    match process tk q ctx MAX_QUERY_LEN MAX_SEQ_LEN with
    | .error e => .error e
    | .ok features =>
      let answers := features.enum.map (fun p =>
        getBestAnswers (modelStart p.1) (modelEnd p.1) p.2.origTokens
          p.2.tokenToOrigMap ctx p.1 id)
      .ok (((List.insertionSort answerScoreGE
          (answers.foldl (fun acc a => acc ++ a) []))).take PREDICT_ANSWER_NUM)
  | _, _ => .error .InvalidInput

/-! Order instances for the descending-score sorts. -/

instance : IsTotal (Nat × ℚ) logitGE := ⟨fun a b => le_total b.2 a.2⟩

instance : IsTrans (Nat × ℚ) logitGE := ⟨fun _ _ _ h1 h2 => le_trans h2 h1⟩

instance : IsTotal AnswerIndex scoreGE := ⟨fun a b => le_total b.score a.score⟩

instance : IsTrans AnswerIndex scoreGE := ⟨fun _ _ _ h1 h2 => le_trans h2 h1⟩

instance : IsTotal Answer answerScoreGE := ⟨fun a b => le_total b.score a.score⟩

instance : IsTrans Answer answerScoreGE := ⟨fun _ _ _ h1 h2 => le_trans h2 h1⟩

/-! Well-formedness of the external tokenizer output for one passage
string: the original tokens are nonempty whitespace-free substrings of
the passage at their recorded character offsets, consecutive tokens are
separated by whitespace only, and the final token ends at the final
character (the passage handed to processInput is trimmed).  This is the
behaviour the spec ascribes to the external word-level tokenizer. -/

/-- Original token at a position, with the out-of-range default. -/
def tokAt (toks : List Token) (i : Nat) : Token := toks.getD i default

/-- One past the final character index of the token at position i. -/
def tokEnd (toks : List Token) (i : Nat) : Nat :=
  (tokAt toks i).index + (tokAt toks i).text.data.length

structure WFTokens (ctx : List Char) (toks : List Token) : Prop where
  tok_nonempty : ∀ i, i < toks.length → (tokAt toks i).text.data ≠ []
  tok_no_ws : ∀ i, i < toks.length → ∀ c ∈ (tokAt toks i).text.data, isWS c = false
  tok_matches : ∀ i, i < toks.length →
    (ctx.drop (tokAt toks i).index).take (tokAt toks i).text.data.length =
      (tokAt toks i).text.data
  gap_le : ∀ i, i + 1 < toks.length → tokEnd toks i ≤ (tokAt toks (i + 1)).index
  gap_ws : ∀ i, i + 1 < toks.length →
    ∀ c ∈ (ctx.drop (tokEnd toks i)).take ((tokAt toks (i + 1)).index - tokEnd toks i),
      isWS c = true
  last_end : 0 < toks.length → tokEnd toks (toks.length - 1) = ctx.length

/-! Concrete instances used by witnesses and counterexamples: a small
deterministic tokenizer in the style the spec describes, and sharply
peaked logit profiles. -/

/-- A concrete tokenizer: the query normalizes to one sub-word; the
passage words a and blue each map to one sub-word; an overlong question
maps to 65 sub-words. -/
def tkEx : Tokenizer where
  tokenize := fun s =>
    if s = "q?" then [5]
    else if s = "a" then [8]
    else if s = "blue" then [9]
    else if s = "longq?" then List.replicate 65 7
    else []
  processInput := fun s =>
    if s = "a blue" then [⟨"a", 0⟩, ⟨"blue", 2⟩]
    else if s = "blue" then [⟨"blue", 0⟩]
    else []

/-- Logits peaked at a single position p with value 10, 0 elsewhere. -/
def peakLogits (p : Nat) : Nat → ℚ := fun i => if i = p then 10 else 0

/-- The single feature built for the question q over the passage a blue. -/
def fEx : Feature :=
  ((process tkEx "q" "a blue" MAX_QUERY_LEN MAX_SEQ_LEN 128).toOption.getD []).getD 0 default

/-- The answers of a full concrete findAnswers run: one feature, logits
peaked at position 4 (the sub-word of the word blue). -/
def ansEx : List Answer :=
  (findAnswers tkEx (fun _ => peakLogits 4) (fun _ => peakLogits 4)
    (some "q") (some "a blue") none).toOption.getD []

/-- The single feature built for the question q over the one-word passage
blue, whose only original-token index is 0. -/
def fExBlue : Feature :=
  ((process tkEx "q" "blue" MAX_QUERY_LEN MAX_SEQ_LEN 128).toOption.getD []).getD 0 default

/-! Helper lemmas about the JavaScript trim model. -/

theorem dropWhile_head_false {p : Char → Bool} {l : List Char} {c : Char}
    (h : (l.dropWhile p).head? = some c) : p c = false := by
  induction l with
  | nil => simp [List.dropWhile] at h
  | cons a l ih =>
    by_cases hp : p a
    · rw [List.dropWhile_cons_of_pos hp] at h; exact ih h
    · rw [List.dropWhile_cons_of_neg hp] at h
      simp at h
      rw [← h]
      exact Bool.of_not_eq_true hp

theorem dropWhile_eq_self_of_head {p : Char → Bool} {l : List Char}
    (h : ∀ c, l.head? = some c → p c = false) : l.dropWhile p = l := by
  cases l with
  | nil => rfl
  | cons a l =>
    have := h a rfl
    simp [List.dropWhile, this]

theorem dropWhile_idem {p : Char → Bool} (l : List Char) :
    (l.dropWhile p).dropWhile p = l.dropWhile p :=
  dropWhile_eq_self_of_head (fun _ h => dropWhile_head_false h)

theorem dropWhile_eq_drop (p : Char → Bool) (l : List Char) :
    ∃ n, l.dropWhile p = l.drop n := by
  induction l with
  | nil => exact ⟨0, rfl⟩
  | cons a l ih =>
    by_cases hp : p a
    · obtain ⟨n, hn⟩ := ih
      exact ⟨n + 1, by rw [List.dropWhile_cons_of_pos hp, hn]; rfl⟩
    · exact ⟨0, by rw [List.dropWhile_cons_of_neg hp]; rfl⟩

/-- The trimmed list is a prefix (as a take) of the front-trimmed list. -/
theorem trimList_eq_take (l : List Char) :
    ∃ k, trimList l = (l.dropWhile isWS).take k := by
  unfold trimList
  obtain ⟨n, hn⟩ := dropWhile_eq_drop isWS (l.dropWhile isWS).reverse
  refine ⟨(l.dropWhile isWS).length - n, ?_⟩
  rw [hn, List.reverse_drop, List.length_reverse, List.reverse_reverse]

theorem trimList_head_false {l : List Char} {c : Char}
    (h : (trimList l).head? = some c) : isWS c = false := by
  obtain ⟨k, hk⟩ := trimList_eq_take l
  rw [hk, List.head?_take] at h
  by_cases h0 : k = 0
  · simp [h0] at h
  · rw [if_neg h0] at h
    exact dropWhile_head_false h

theorem trimList_idem (l : List Char) : trimList (trimList l) = trimList l := by
  have h1 : (trimList l).dropWhile isWS = trimList l :=
    dropWhile_eq_self_of_head (fun _ h => trimList_head_false h)
  show (((trimList l).dropWhile isWS).reverse.dropWhile isWS).reverse = trimList l
  rw [h1]
  unfold trimList
  rw [List.reverse_reverse, dropWhile_idem]

theorem mem_trimList {l : List Char} {c : Char} (h : c ∈ trimList l) : c ∈ l := by
  unfold trimList at h
  rw [List.mem_reverse] at h
  have h2 := (List.dropWhile_sublist isWS (l := (l.dropWhile isWS).reverse)).mem h
  rw [List.mem_reverse] at h2
  exact (List.dropWhile_sublist isWS (l := l)).mem h2

/-- C9: question normalization (strip every question-mark character, trim
whitespace, append exactly one question mark) is idempotent, and its
result always ends in exactly one question mark (the final character is
a question mark and no other character of the result is one). -/
theorem claim_C9 (q : String) :
    normalizeQuery (normalizeQuery q) = normalizeQuery q ∧
    ∃ t : List Char, (normalizeQuery q).data = t ++ ['?'] ∧ '?' ∉ t := by
  have hdata : ∀ s : String, (normalizeQuery s).data =
      trimList (s.data.filter (fun c => c ≠ '?')) ++ ['?'] := by
    intro s
    show (jsTrim (stripQuestionMarks s) ++ "?").data = _
    rw [String.data_append]
    rfl
  have hmem : ∀ c ∈ trimList (q.data.filter (fun c => c ≠ '?')), (c ≠ '?' : Bool) = true := by
    intro c hc
    exact (List.mem_filter.mp (mem_trimList hc)).2
  constructor
  · apply String.ext
    rw [hdata, hdata]
    congr 1
    have hstrip : (stripQuestionMarks (normalizeQuery q)).data =
        trimList (q.data.filter (fun c => c ≠ '?')) := by
      show (normalizeQuery q).data.filter (fun c => c ≠ '?') = _
      rw [hdata, List.filter_append]
      have h1 : (trimList (q.data.filter (fun c => c ≠ '?'))).filter (fun c => c ≠ '?') =
          trimList (q.data.filter (fun c => c ≠ '?')) := List.filter_eq_self.mpr hmem
      rw [h1]
      simp
    show trimList (stripQuestionMarks (normalizeQuery q)).data = _
    rw [hstrip, trimList_idem]
  · refine ⟨trimList (q.data.filter (fun c => c ≠ '?')), hdata q, ?_⟩
    intro hc
    have := hmem _ hc
    simp at this

/-! Sliding-window lemmas. -/

/-- With positive budget and stride not exceeding the budget, the window
loop with enough fuel is nonempty, starts at the given offset with the
clipped window width, ends exactly at n, and advances by exactly the
stride between consecutive windows. -/
theorem docSpansGo_spec (mcl ds : Nat) (hds : 0 < ds) (hstride : ds ≤ mcl) (n : Nat) :
    ∀ fuel startOffset, n - startOffset < fuel → startOffset < n →
      (docSpansGo mcl ds n fuel startOffset).head? =
          some (startOffset, min (n - startOffset) mcl) ∧
      (∃ last, (docSpansGo mcl ds n fuel startOffset).getLast? = some last ∧
          last.1 + last.2 = n) ∧
      List.Chain' (fun a b => b.1 = a.1 + ds) (docSpansGo mcl ds n fuel startOffset) := by
  intro fuel
  induction fuel with
  | zero => intro startOffset hfuel hlt; omega
  | succ fuel ih =>
    intro startOffset hfuel hlt
    rw [docSpansGo, if_pos hlt]
    by_cases hend : startOffset + min (n - startOffset) mcl = n
    · rw [if_pos hend]
      exact ⟨rfl, ⟨_, rfl, hend⟩, List.chain'_singleton _⟩
    · rw [if_neg hend]
      have hmcl : 0 < mcl := lt_of_lt_of_le hds hstride
      have hlen : min (n - startOffset) mcl = mcl := by omega
      rw [hlen]
      have hadv : min mcl ds = ds := by omega
      rw [hadv]
      have hlt2 : startOffset + ds < n := by omega
      have hfuel2 : n - (startOffset + ds) < fuel := by omega
      obtain ⟨hhead, ⟨last, hlast, hlastend⟩, hchain⟩ := ih (startOffset + ds) hfuel2 hlt2
      have hne : docSpansGo mcl ds n fuel (startOffset + ds) ≠ [] := by
        intro hnil; rw [hnil] at hhead; exact Option.noConfusion hhead
      refine ⟨rfl, ⟨last, ?_, hlastend⟩, ?_⟩
      · cases hl : docSpansGo mcl ds n fuel (startOffset + ds) with
        | nil => exact absurd hl hne
        | cons b l2 =>
          rw [hl] at hlast
          rw [List.getLast?_cons_cons]
          exact hlast
      · rw [List.chain'_cons']
        refine ⟨?_, hchain⟩
        intro y hy
        rw [hhead] at hy
        cases hy
        rfl

/-- C5: for every passage producing at least one window, the windows cover
the sub-word sequence: the first window starts at offset 0 with the
clipped width, the final window ends exactly at the sequence length, and
each consecutive pair of windows advances the start by exactly docStride
(with a stride not exceeding the window budget, as at the only call
site, no shorter advance ever occurs, which the claim permits). -/
theorem claim_C5 (maxContextLen docStride n : Nat)
    (hds : 0 < docStride) (hstride : docStride ≤ maxContextLen)
    (hne : docSpans maxContextLen docStride n 0 ≠ []) :
    (docSpans maxContextLen docStride n 0).head? = some (0, min n maxContextLen) ∧
    (∃ last, (docSpans maxContextLen docStride n 0).getLast? = some last ∧
        last.1 + last.2 = n) ∧
    List.Chain' (fun a b => b.1 = a.1 + docStride) (docSpans maxContextLen docStride n 0) := by
  have hn : 0 < n := by
    by_contra h
    apply hne
    unfold docSpans
    rw [docSpansGo, if_neg (by omega)]
  have := docSpansGo_spec maxContextLen docStride hds hstride n (n + 1) 0 (by omega) hn
  simpa [docSpans] using this

theorem claim_C5_witness :
    (docSpans 317 128 700 0).head? = some (0, min 700 317) ∧
    (∃ last, (docSpans 317 128 700 0).getLast? = some last ∧ last.1 + last.2 = 700) ∧
    List.Chain' (fun a b => b.1 = a.1 + 128) (docSpans 317 128 700 0) :=
  claim_C5 317 128 700 (by decide) (by decide) (by decide)

/-- C4 (amended): for every passage with at least one sub-word whose full
sub-word sequence is shorter than maxContextLen, exactly one feature is
produced, built from the window (0, n) that starts at offset 0 and
covers the whole sub-word sequence.  (The original claim fails for a
passage with an empty sub-word sequence, which produces no feature at
all; see the counterexample.) -/
theorem claim_C4 (tk : Tokenizer) (query context : String) (mq ms ds : Nat)
    (hq : ¬ (tk.tokenize (normalizeQuery query)).length > mq)
    (hn : 0 < (allDocTokensOf tk (tk.processInput (jsTrim context))).length)
    (hlt : (allDocTokensOf tk (tk.processInput (jsTrim context))).length <
        ms - (tk.tokenize (normalizeQuery query)).length - 3) :
    process tk query context mq ms ds =
      .ok [buildFeature (tk.tokenize (normalizeQuery query))
        (allDocTokensOf tk (tk.processInput (jsTrim context)))
        (tokenToOrigIndexOf tk (tk.processInput (jsTrim context)))
        (tk.processInput (jsTrim context)) ms
        (0, (allDocTokensOf tk (tk.processInput (jsTrim context))).length)] := by
  set n := (allDocTokensOf tk (tk.processInput (jsTrim context))).length with hn_def
  have hspans : docSpans (ms - (tk.tokenize (normalizeQuery query)).length - 3) ds n 0 =
      [(0, n)] := by
    unfold docSpans
    rw [docSpansGo, if_pos hn]
    have hmin : min (n - 0) (ms - (tk.tokenize (normalizeQuery query)).length - 3) = n := by
      omega
    rw [hmin, if_pos (by omega)]
  unfold process
  simp only [if_neg hq, hspans, List.map_cons, List.map_nil]

theorem claim_C4_witness :
    process tkEx "q" "a blue" MAX_QUERY_LEN MAX_SEQ_LEN 128 =
      .ok [buildFeature (tkEx.tokenize (normalizeQuery "q"))
        (allDocTokensOf tkEx (tkEx.processInput (jsTrim "a blue")))
        (tokenToOrigIndexOf tkEx (tkEx.processInput (jsTrim "a blue")))
        (tkEx.processInput (jsTrim "a blue")) MAX_SEQ_LEN
        (0, (allDocTokensOf tkEx (tkEx.processInput (jsTrim "a blue"))).length)] :=
  claim_C4 tkEx "q" "a blue" MAX_QUERY_LEN MAX_SEQ_LEN 128
    (by decide) (by decide) (by decide)

/-- C4 counterexample: a passage whose sub-word sequence is empty (length
0, which is shorter than the positive maxContextLen) produces zero
features, not exactly one. -/
theorem claim_C4_counterexample :
    (allDocTokensOf tkEx (tkEx.processInput (jsTrim ""))).length = 0 ∧
    0 < MAX_SEQ_LEN - (tkEx.tokenize (normalizeQuery "q")).length - 3 ∧
    process tkEx "q" "" MAX_QUERY_LEN MAX_SEQ_LEN 128 = .ok [] := by decide

/-! Error handling: C7 and C8. -/

/-- process only ever fails with InputTooLong. -/
theorem process_error_eq {tk : Tokenizer} {query context : String}
    {mq ms ds : Nat} {e : QnAError}
    (h : process tk query context mq ms ds = .error e) : e = .InputTooLong := by
  unfold process at h
  by_cases hc : (tk.tokenize (normalizeQuery query)).length > mq
  · rw [if_pos hc] at h
    exact (Except.error.inj h).symm
  · rw [if_neg hc] at h
    exact Except.noConfusion h

/-- C7: findAnswers fails with InvalidInput exactly when the question or
the context is absent (null or undefined, modelled by none); the result
is the same for every tokenizer and model, so the failure precedes any
tokenization or other processing. -/
theorem claim_C7 (tk : Tokenizer) (modelStart modelEnd : Nat → Nat → ℚ)
    (question context : Option String) (id : Option String) :
    findAnswers tk modelStart modelEnd question context id = .error .InvalidInput ↔
      (question = none ∨ context = none) := by
  match question, context with
  | none, _ => simp [findAnswers]
  | some q, none => simp [findAnswers]
  | some q, some ctx =>
    simp only [Option.some_ne_none, or_self, iff_false]
    unfold findAnswers
    cases hp : process tk q ctx MAX_QUERY_LEN MAX_SEQ_LEN with
    | error e =>
      have := process_error_eq hp
      subst this
      simp [hp]
    | ok features =>
      simp [hp]

theorem claim_C7_witness :
    findAnswers tkEx (fun _ _ => 0) (fun _ _ => 0) none (some "some context") none =
      .error .InvalidInput :=
  (claim_C7 tkEx (fun _ _ => 0) (fun _ _ => 0) none (some "some context") none).mpr
    (Or.inl rfl)

/-- C8: feature construction fails with InputTooLong exactly when the
tokenized normalized question exceeds maxQueryLen sub-words; on success
every feature carries the full query token sequence right after the
classification marker (no truncation); and through findAnswers (whose
query limit is MAX_QUERY_LEN) the same failure surfaces unchanged. -/
theorem claim_C8 (tk : Tokenizer) (query context : String) (mq ms ds : Nat) :
    (process tk query context mq ms ds = .error .InputTooLong ↔
      (tk.tokenize (normalizeQuery query)).length > mq) ∧
    (∀ fs, process tk query context mq ms ds = .ok fs →
      ∀ f ∈ fs, ∃ rest, f.inputIds =
        CLS_INDEX :: (tk.tokenize (normalizeQuery query) ++ SEP_INDEX :: rest)) ∧
    (∀ modelStart modelEnd id,
      findAnswers tk modelStart modelEnd (some query) (some context) id =
          .error .InputTooLong ↔
        (tk.tokenize (normalizeQuery query)).length > MAX_QUERY_LEN) := by
  refine ⟨?_, ?_, ?_⟩
  · unfold process
    by_cases hc : (tk.tokenize (normalizeQuery query)).length > mq
    · simp [if_pos hc, hc]
    · simp [if_neg hc, hc]
  · intro fs h f hf
    unfold process at h
    by_cases hc : (tk.tokenize (normalizeQuery query)).length > mq
    · rw [if_pos hc] at h
      exact Except.noConfusion h
    · rw [if_neg hc] at h
      replace h := Except.ok.inj h
      subst h
      obtain ⟨span, _, hspan⟩ := List.mem_map.mp hf
      refine ⟨((allDocTokensOf tk (tk.processInput (jsTrim context))).drop span.1).take span.2
          ++ [SEP_INDEX] ++ List.replicate (ms - (CLS_INDEX :: (tk.tokenize (normalizeQuery query) ++
            SEP_INDEX :: (((allDocTokensOf tk (tk.processInput (jsTrim context))).drop span.1).take span.2
              ++ [SEP_INDEX]))).length) 0, ?_⟩
      rw [← hspan]
      show (CLS_INDEX :: (tk.tokenize (normalizeQuery query) ++
          SEP_INDEX :: (((allDocTokensOf tk (tk.processInput (jsTrim context))).drop span.1).take span.2
            ++ [SEP_INDEX]))) ++ List.replicate _ 0 = _

      simp [List.cons_append, List.append_assoc]
  · intro modelStart modelEnd id
    unfold findAnswers
    by_cases hc : (tk.tokenize (normalizeQuery query)).length > MAX_QUERY_LEN
    · have hp : process tk query context MAX_QUERY_LEN MAX_SEQ_LEN = .error .InputTooLong := by
        unfold process
        rw [if_pos hc]
      simp [hp, hc]
    · cases hp : process tk query context MAX_QUERY_LEN MAX_SEQ_LEN with
      | error e =>
        have he := process_error_eq hp
        subst he
        unfold process at hp
        rw [if_neg hc] at hp
        exact Except.noConfusion hp
      | ok features =>
        simp [hp, hc]

theorem claim_C8_witness :
    process tkEx "longq" "a blue" MAX_QUERY_LEN MAX_SEQ_LEN 128 = .error .InputTooLong ∧
    findAnswers tkEx (fun _ _ => 0) (fun _ _ => 0) (some "longq") (some "a blue") none =
      .error .InputTooLong :=
  ⟨(claim_C8 tkEx "longq" "a blue" MAX_QUERY_LEN MAX_SEQ_LEN 128).1.mpr (by decide),
   ((claim_C8 tkEx "longq" "a blue" MAX_QUERY_LEN MAX_SEQ_LEN 128).2.2
     (fun _ _ => 0) (fun _ _ => 0) none).mpr (by decide)⟩

/-! The token-to-original map: lookup characterization. -/

/-- Lookup in an association list whose keys are q, q + 1, ..., q + len - 1
in order, with value v i at key q + i. -/
theorem mapLookup_range : ∀ (len : Nat) (q : Nat) (v : Nat → Nat) (k : Nat),
    mapLookup ((List.range len).map (fun i => (q + i, v i))) k =
      if q ≤ k ∧ k < q + len then some (v (k - q)) else none := by
  intro len
  induction len with
  | zero =>
    intro q v k
    rw [if_neg (by omega)]
    rfl
  | succ m ih =>
    intro q v k
    rw [List.range_succ_eq_map, List.map_cons, List.map_map]
    have hmap : (List.range m).map ((fun i => (q + i, v i)) ∘ (· + 1)) =
        (List.range m).map (fun i => (q + 1 + i, (fun j => v (j + 1)) i)) := by
      apply List.map_congr_left
      intro a _
      show (q + (a + 1), v (a + 1)) = (q + 1 + a, v (a + 1))
      rw [Nat.add_comm a 1, ← Nat.add_assoc]
    rw [hmap]
    by_cases hk : k = q + 0
    · unfold mapLookup
      rw [List.find?_cons_of_pos _ (by simp [hk])]
      rw [if_pos (by omega)]
      have hkq : k - q = 0 := by omega
      rw [hkq]
      rfl
    · unfold mapLookup
      rw [List.find?_cons_of_neg _ (by simp; omega)]
      have hih := ih (q + 1) (fun j => v (j + 1)) k
      unfold mapLookup at hih
      rw [hih]
      by_cases hin : q + 1 ≤ k ∧ k < q + 1 + m
      · rw [if_pos hin, if_pos (by omega)]
        have hkq : k - (q + 1) + 1 = k - q := by omega
        rw [hkq]
      · rw [if_neg hin, if_neg (by omega)]

/-- Every span the window loop emits starts inside the sequence and has
the clipped width. -/
theorem docSpansGo_mem (mcl ds n : Nat) : ∀ (fuel s : Nat) (span : Nat × Nat),
    span ∈ docSpansGo mcl ds n fuel s → span.1 < n ∧ span.2 = min (n - span.1) mcl := by
  intro fuel
  induction fuel with
  | zero =>
    intro s span h
    exact absurd h (by simp [docSpansGo])
  | succ m ih =>
    intro s span h
    rw [docSpansGo] at h
    by_cases hs : s < n
    · rw [if_pos hs] at h
      rcases List.mem_cons.mp h with heq | htail
      · subst heq
        exact ⟨hs, rfl⟩
      · by_cases hend : s + min (n - s) mcl = n
        · rw [if_pos hend] at htail
          exact absurd htail (List.not_mem_nil span)
        · rw [if_neg hend] at htail
          exact ih _ span htail
    · rw [if_neg hs] at h
      exact absurd h (List.not_mem_nil span)

/-- C2 (amended): every feature of process comes from one window span; the
assembled input places the window sub-words right after the prefix of
the classification marker, the query tokens and the first separator
(that prefix has length queryTokens.length + 2, so the window sub-word
of offset i sits at assembled position queryTokens.length + 2 + i); and
tokenToOrigMap holds, for each window offset i, exactly one entry at key
queryTokens.length + 3 + i, the assembled position plus one, mapping to
that sub-word's original-token index, and no other key.  (The original
claim keys the map by the assembled position itself; the source records
tokens.length after the push, so every key is the position plus one, and
the counterexample shows the unshifted lookup fails.) -/
theorem claim_C2 (tk : Tokenizer) (query context : String) (mq ms ds : Nat)
    (fs : List Feature) (h : process tk query context mq ms ds = .ok fs)
    (f : Feature) (hf : f ∈ fs) :
    ∃ span ∈ docSpans (ms - (tk.tokenize (normalizeQuery query)).length - 3) ds
        (allDocTokensOf tk (tk.processInput (jsTrim context))).length 0,
      f.inputIds =
        ([CLS_INDEX] ++ tk.tokenize (normalizeQuery query) ++ [SEP_INDEX]) ++
          (((allDocTokensOf tk (tk.processInput (jsTrim context))).drop span.1).take span.2 ++
            ([SEP_INDEX] ++ List.replicate
              (ms - ((tk.tokenize (normalizeQuery query)).length + 3 + span.2)) 0)) ∧
      (∀ i, i < span.2 →
        mapLookup f.tokenToOrigMap ((tk.tokenize (normalizeQuery query)).length + 3 + i) =
          some ((tokenToOrigIndexOf tk (tk.processInput (jsTrim context))).getD (span.1 + i) 0)) ∧
      (∀ k, (mapLookup f.tokenToOrigMap k).isSome ↔
        ((tk.tokenize (normalizeQuery query)).length + 3 ≤ k ∧
          k < (tk.tokenize (normalizeQuery query)).length + 3 + span.2)) := by
  unfold process at h
  by_cases hc : (tk.tokenize (normalizeQuery query)).length > mq
  · rw [if_pos hc] at h
    exact Except.noConfusion h
  · rw [if_neg hc] at h
    replace h := Except.ok.inj h
    subst h
    obtain ⟨span, hspan, hfeq⟩ := List.mem_map.mp hf
    refine ⟨span, hspan, ?_, ?_, ?_⟩
    · rw [← hfeq]
      have hb := docSpansGo_mem _ ds _ _ _ span hspan
      have hwin : (((allDocTokensOf tk (tk.processInput (jsTrim context))).drop span.1).take
          span.2).length = span.2 := by
        rw [List.length_take, List.length_drop]
        omega
      show (CLS_INDEX :: (tk.tokenize (normalizeQuery query) ++ SEP_INDEX ::
          ((((allDocTokensOf tk (tk.processInput (jsTrim context))).drop span.1).take span.2)
            ++ [SEP_INDEX]))) ++ List.replicate _ 0 = _
      have hlen : (CLS_INDEX :: (tk.tokenize (normalizeQuery query) ++ SEP_INDEX ::
          ((((allDocTokensOf tk (tk.processInput (jsTrim context))).drop span.1).take span.2)
            ++ [SEP_INDEX]))).length =
          (tk.tokenize (normalizeQuery query)).length + 3 + span.2 := by
        simp [hwin]
        omega
      rw [hlen]
      simp [List.cons_append, List.append_assoc]
    · intro i hi
      rw [← hfeq]
      show mapLookup ((List.range span.2).map
          (fun i => ((tk.tokenize (normalizeQuery query)).length + 3 + i,
            (tokenToOrigIndexOf tk (tk.processInput (jsTrim context))).getD (span.1 + i) 0)))
          ((tk.tokenize (normalizeQuery query)).length + 3 + i) = _
      rw [mapLookup_range span.2 ((tk.tokenize (normalizeQuery query)).length + 3)
        (fun i => (tokenToOrigIndexOf tk (tk.processInput (jsTrim context))).getD (span.1 + i) 0)]
      rw [if_pos (by omega)]
      congr 2
      omega
    · intro k
      rw [← hfeq]
      show (mapLookup ((List.range span.2).map
          (fun i => ((tk.tokenize (normalizeQuery query)).length + 3 + i,
            (tokenToOrigIndexOf tk (tk.processInput (jsTrim context))).getD (span.1 + i) 0)))
          k).isSome ↔ _
      rw [mapLookup_range span.2 ((tk.tokenize (normalizeQuery query)).length + 3)
        (fun i => (tokenToOrigIndexOf tk (tk.processInput (jsTrim context))).getD (span.1 + i) 0)]
      by_cases hin : (tk.tokenize (normalizeQuery query)).length + 3 ≤ k ∧
          k < (tk.tokenize (normalizeQuery query)).length + 3 + span.2
      · rw [if_pos hin]
        simpa using hin
      · rw [if_neg hin]
        simpa using hin

theorem claim_C2_witness :
    ∃ span ∈ docSpans
        (MAX_SEQ_LEN - (tkEx.tokenize (normalizeQuery "q")).length - 3) 128
        (allDocTokensOf tkEx (tkEx.processInput (jsTrim "a blue"))).length 0,
      (((process tkEx "q" "a blue" MAX_QUERY_LEN MAX_SEQ_LEN 128).toOption.getD []).getD 0
          default).inputIds =
        ([CLS_INDEX] ++ tkEx.tokenize (normalizeQuery "q") ++ [SEP_INDEX]) ++
          (((allDocTokensOf tkEx (tkEx.processInput (jsTrim "a blue"))).drop span.1).take span.2 ++
            ([SEP_INDEX] ++ List.replicate
              (MAX_SEQ_LEN - ((tkEx.tokenize (normalizeQuery "q")).length + 3 + span.2)) 0)) ∧
      (∀ i, i < span.2 →
        mapLookup (((process tkEx "q" "a blue" MAX_QUERY_LEN MAX_SEQ_LEN 128).toOption.getD
            []).getD 0 default).tokenToOrigMap
            ((tkEx.tokenize (normalizeQuery "q")).length + 3 + i) =
          some ((tokenToOrigIndexOf tkEx (tkEx.processInput (jsTrim "a blue"))).getD
            (span.1 + i) 0)) ∧
      (∀ k, (mapLookup (((process tkEx "q" "a blue" MAX_QUERY_LEN MAX_SEQ_LEN 128).toOption.getD
            []).getD 0 default).tokenToOrigMap k).isSome ↔
        ((tkEx.tokenize (normalizeQuery "q")).length + 3 ≤ k ∧
          k < (tkEx.tokenize (normalizeQuery "q")).length + 3 + span.2)) :=
  claim_C2 tkEx "q" "a blue" MAX_QUERY_LEN MAX_SEQ_LEN 128
    ((process tkEx "q" "a blue" MAX_QUERY_LEN MAX_SEQ_LEN 128).toOption.getD []) (by decide)
    (((process tkEx "q" "a blue" MAX_QUERY_LEN MAX_SEQ_LEN 128).toOption.getD []).getD 0
      default) (by decide)

/-- C2 counterexample: in the single feature built for the passage of two
original tokens, the first passage sub-word sits at assembled position 3
(classification marker at 0, one query sub-word at 1, separator at 2),
yet the map has no entry at key 3: its entries sit at keys 4 and 5, the
passage positions shifted by one, and key 5 is the assembled position of
the final separator, not of a passage sub-word. -/
theorem claim_C2_counterexample :
    ((process tkEx "q" "a blue" MAX_QUERY_LEN MAX_SEQ_LEN 128).toOption.getD []).length = 1 ∧
    (((process tkEx "q" "a blue" MAX_QUERY_LEN MAX_SEQ_LEN 128).toOption.getD []).getD 0
        default).inputIds.getD 3 0 = 8 ∧
    mapLookup (((process tkEx "q" "a blue" MAX_QUERY_LEN MAX_SEQ_LEN 128).toOption.getD
        []).getD 0 default).tokenToOrigMap 3 = none ∧
    mapLookup (((process tkEx "q" "a blue" MAX_QUERY_LEN MAX_SEQ_LEN 128).toOption.getD
        []).getD 0 default).tokenToOrigMap 4 = some 0 ∧
    mapLookup (((process tkEx "q" "a blue" MAX_QUERY_LEN MAX_SEQ_LEN 128).toOption.getD
        []).getD 0 default).tokenToOrigMap 5 = some 1 ∧
    (((process tkEx "q" "a blue" MAX_QUERY_LEN MAX_SEQ_LEN 128).toOption.getD []).getD 0
        default).inputIds.getD 5 0 = SEP_INDEX := by decide

/-! Candidate filtering and retention lemmas, shared by the decoder
claims. -/

/-- A truthy lookup means the key is present (with a nonzero value). -/
theorem truthyLookup_isSome {m : List (Nat × Nat)} {k : Nat}
    (h : truthyLookup m k = true) : (mapLookup m k).isSome := by
  unfold truthyLookup at h
  cases hm : mapLookup m k with
  | none => rw [hm] at h; exact Bool.noConfusion h
  | some v => rfl

/-- A present key appears in the key list of the association list. -/
theorem mapLookup_mem_keys {m : List (Nat × Nat)} {k : Nat}
    (h : (mapLookup m k).isSome) : k ∈ m.map Prod.fst := by
  unfold mapLookup at h
  cases hf : m.find? (fun p => p.1 = k) with
  | none => rw [hf] at h; exact Bool.noConfusion h
  | some p =>
    have hp := List.find?_some hf
    have hmem := List.mem_of_find?_eq_some hf
    have : p.1 = k := by simpa using hp
    subst this
    exact List.mem_map.mpr ⟨p, hmem, rfl⟩

/-- Every scored candidate passed the truthiness filter of lines 283-289:
both shifted lookups truthy, end at or after start, length below the
limit, and the score is the sum of the two picked logits. -/
theorem mem_origResultsOf {startLogits endLogits : Nat → ℚ}
    {m : List (Nat × Nat)} {r : AnswerIndex}
    (h : r ∈ origResultsOf startLogits endLogits m) :
    r.start ∈ getBestIndex startLogits ∧ r.stop ∈ getBestIndex endLogits ∧
    truthyLookup m (r.start + OUTPUT_OFFSET) = true ∧
    truthyLookup m (r.stop + OUTPUT_OFFSET) = true ∧
    r.start ≤ r.stop ∧ r.stop - r.start + 1 < MAX_ANSWER_LEN ∧
    r.score = startLogits r.start + endLogits r.stop := by
  unfold origResultsOf at h
  obtain ⟨s, hs, hr⟩ := List.mem_flatMap.mp h
  obtain ⟨e, he, hif⟩ := List.mem_filterMap.mp hr
  by_cases hcond : truthyLookup m (s + OUTPUT_OFFSET) &&
      truthyLookup m (e + OUTPUT_OFFSET) &&
      decide (e ≥ s) && decide (e - s + 1 < MAX_ANSWER_LEN)
  · rw [if_pos hcond] at hif
    replace hif := Option.some.inj hif
    subst hif
    simp only [Bool.and_eq_true, decide_eq_true_eq] at hcond
    exact ⟨hs, he, hcond.1.1.1, hcond.1.1.2, hcond.1.2, hcond.2, rfl⟩
  · rw [if_neg hcond] at hif
    exact Option.noConfusion hif

/-- Every retained candidate is a scored candidate. -/
theorem retainedOf_subset {l : List AnswerIndex} {r : AnswerIndex}
    (h : r ∈ retainedOf l) : r ∈ l := by
  unfold retainedOf at h
  have h1 := (List.takeWhile_sublist _).mem h
  have h2 := (List.take_sublist _ _).mem h1
  exact (List.perm_insertionSort scoreGE l).subset h2

/-- Every retained candidate scores at or above the no-answer threshold. -/
theorem retainedOf_score {l : List AnswerIndex} {r : AnswerIndex}
    (h : r ∈ retainedOf l) : NO_ANSWER_THRESHOLD ≤ r.score := by
  unfold retainedOf at h
  simpa using List.mem_takeWhile_imp h

/-- C10: for every feature built by process (with the positive window
budget the call site always has), the smallest key present in
tokenToOrigMap is queryTokens.length + 3; consequently, in getBestAnswers
on that feature every retained candidate has start at least
queryTokens.length + 2 > 0, every emitted Answer is produced through
convertBack, and the no-answer sentinel branch (empty text with zero
offsets for start = 0) is unreachable. -/
theorem claim_C10 (tk : Tokenizer) (query context : String) (mq ms ds : Nat)
    (fs : List Feature) (h : process tk query context mq ms ds = .ok fs)
    (hmcl : 0 < ms - (tk.tokenize (normalizeQuery query)).length - 3)
    (f : Feature) (hf : f ∈ fs) :
    ((tk.tokenize (normalizeQuery query)).length + 3 ∈ f.tokenToOrigMap.map Prod.fst ∧
      ∀ k ∈ f.tokenToOrigMap.map Prod.fst,
        (tk.tokenize (normalizeQuery query)).length + 3 ≤ k) ∧
    (∀ startLogits endLogits ctx docIdx id a,
      a ∈ getBestAnswers startLogits endLogits f.origTokens f.tokenToOrigMap ctx docIdx id →
      ∃ r ∈ retainedOf (origResultsOf startLogits endLogits f.tokenToOrigMap),
        (tk.tokenize (normalizeQuery query)).length + 2 ≤ r.start ∧ 0 < r.start ∧
        a = { text := (convertBack f.origTokens f.tokenToOrigMap r.start r.stop ctx).1,
              startIndex := (convertBack f.origTokens f.tokenToOrigMap r.start r.stop ctx).2.1,
              endIndex := (convertBack f.origTokens f.tokenToOrigMap r.start r.stop ctx).2.2,
              score := r.score, context := ctx, id := id }) := by
  unfold process at h
  by_cases hc : (tk.tokenize (normalizeQuery query)).length > mq
  · rw [if_pos hc] at h
    exact Except.noConfusion h
  · rw [if_neg hc] at h
    replace h := Except.ok.inj h
    subst h
    obtain ⟨span, hspan, hfeq⟩ := List.mem_map.mp hf
    have hb := docSpansGo_mem _ ds _ _ _ span hspan
    have hkeys : ∀ k, (mapLookup f.tokenToOrigMap k).isSome ↔
        ((tk.tokenize (normalizeQuery query)).length + 3 ≤ k ∧
          k < (tk.tokenize (normalizeQuery query)).length + 3 + span.2) := by
      intro k
      rw [← hfeq]
      show (mapLookup ((List.range span.2).map
          (fun i => ((tk.tokenize (normalizeQuery query)).length + 3 + i,
            (tokenToOrigIndexOf tk (tk.processInput (jsTrim context))).getD (span.1 + i) 0)))
          k).isSome ↔ _
      rw [mapLookup_range span.2 ((tk.tokenize (normalizeQuery query)).length + 3)
        (fun i => (tokenToOrigIndexOf tk (tk.processInput (jsTrim context))).getD (span.1 + i) 0)]
      by_cases hin : (tk.tokenize (normalizeQuery query)).length + 3 ≤ k ∧
          k < (tk.tokenize (normalizeQuery query)).length + 3 + span.2
      · rw [if_pos hin]; simpa using hin
      · rw [if_neg hin]; simpa using hin
    have hpos : 0 < span.2 := by
      have := hb.1
      have := hb.2
      omega
    constructor
    · constructor
      · apply mapLookup_mem_keys
        rw [hkeys]
        omega
      · intro k hk
        obtain ⟨p, hp, hpk⟩ := List.mem_map.mp hk
        have hsome : (mapLookup f.tokenToOrigMap k).isSome := by
          rw [← hpk]
          unfold mapLookup
          cases hfind : f.tokenToOrigMap.find? (fun q => q.1 = p.1) with
          | none =>
            have := List.find?_eq_none.mp hfind p hp
            simp at this
          | some q => rfl
        exact ((hkeys k).mp hsome).1
    · intro startLogits endLogits ctx docIdx id a ha
      unfold getBestAnswers at ha
      obtain ⟨r, hr, hra⟩ := List.mem_map.mp ha
      have hmem := mem_origResultsOf (retainedOf_subset hr)
      have hstart : (tk.tokenize (normalizeQuery query)).length + 2 ≤ r.start := by
        have hsome := truthyLookup_isSome hmem.2.2.1
        have := ((hkeys _).mp hsome).1
        unfold OUTPUT_OFFSET at this
        omega
      refine ⟨r, hr, hstart, by omega, ?_⟩
      rw [← hra]
      unfold answerOfCandidate
      rw [if_pos (by omega)]

theorem claim_C10_witness :
    (tkEx.tokenize (normalizeQuery "q")).length + 3 ∈ fEx.tokenToOrigMap.map Prod.fst ∧
    ∀ k ∈ fEx.tokenToOrigMap.map Prod.fst,
      (tkEx.tokenize (normalizeQuery "q")).length + 3 ≤ k :=
  (claim_C10 tkEx "q" "a blue" MAX_QUERY_LEN MAX_SEQ_LEN 128
    ((process tkEx "q" "a blue" MAX_QUERY_LEN MAX_SEQ_LEN 128).toOption.getD [])
    (by decide) (by decide) fEx (by decide)).1

/-! Global merge: C6. -/

theorem foldl_append_eq_flatten {α : Type} : ∀ (ls : List (List α)) (acc : List α),
    ls.foldl (fun acc a => acc ++ a) acc = acc ++ ls.flatten := by
  intro ls
  induction ls with
  | nil => intro acc; simp
  | cons l ls ih =>
    intro acc
    rw [List.foldl_cons, ih, List.flatten_cons, List.append_assoc]

/-- Every answer getBestAnswers emits scores at or above the threshold. -/
theorem getBestAnswers_score {startLogits endLogits : Nat → ℚ} {origTokens : List Token}
    {m : List (Nat × Nat)} {ctx : String} {docIdx : Nat} {id : Option String} {a : Answer}
    (h : a ∈ getBestAnswers startLogits endLogits origTokens m ctx docIdx id) :
    NO_ANSWER_THRESHOLD ≤ a.score := by
  unfold getBestAnswers at h
  obtain ⟨r, hr, hra⟩ := List.mem_map.mp h
  have hscore := retainedOf_score hr
  have : a.score = r.score := by
    rw [← hra]
    unfold answerOfCandidate
    by_cases hs : r.start > 0
    · rw [if_pos hs]
    · rw [if_neg hs]
  rw [this]
  exact hscore

/-- C6: a successful findAnswers call returns exactly the globally merged
list: the per-feature candidate lists are concatenated, sorted by
descending score regardless of window order, and cut to the first
PREDICT_ANSWER_NUM entries; hence at most PREDICT_ANSWER_NUM answers,
sorted by non-increasing score, each scoring at or above
NO_ANSWER_THRESHOLD. -/
theorem claim_C6 (tk : Tokenizer) (modelStart modelEnd : Nat → Nat → ℚ)
    (question context : String) (id : Option String)
    (features : List Feature) (answers : List Answer)
    (hp : process tk question context MAX_QUERY_LEN MAX_SEQ_LEN = .ok features)
    (h : findAnswers tk modelStart modelEnd (some question) (some context) id =
      .ok answers) :
    answers = (List.insertionSort answerScoreGE
        ((features.enum.map (fun p => getBestAnswers (modelStart p.1) (modelEnd p.1)
          p.2.origTokens p.2.tokenToOrigMap context p.1 id)).flatten)).take
        PREDICT_ANSWER_NUM ∧
    answers.length ≤ PREDICT_ANSWER_NUM ∧
    List.Pairwise (fun a b => b.score ≤ a.score) answers ∧
    ∀ a ∈ answers, NO_ANSWER_THRESHOLD ≤ a.score := by
  unfold findAnswers at h
  simp only [hp, Except.ok.injEq] at h
  rw [foldl_append_eq_flatten, List.nil_append] at h
  subst h
  refine ⟨rfl, List.length_take_le _ _, ?_, ?_⟩
  · have hsorted : List.Pairwise answerScoreGE (List.insertionSort answerScoreGE
        ((features.enum.map (fun p => getBestAnswers (modelStart p.1) (modelEnd p.1)
          p.2.origTokens p.2.tokenToOrigMap context p.1 id)).flatten)) :=
      List.sorted_insertionSort answerScoreGE _
    exact (List.Pairwise.sublist (List.take_sublist _ _) hsorted).imp (fun hab => hab)
  · intro a ha
    have h1 := (List.take_sublist _ _).mem ha
    have h2 := (List.perm_insertionSort answerScoreGE _).subset h1
    obtain ⟨l, hl, hal⟩ := List.mem_flatten.mp h2
    obtain ⟨p, _, hpl⟩ := List.mem_map.mp hl
    rw [← hpl] at hal
    exact getBestAnswers_score hal

section

attribute [local semireducible] Rat.add Rat.ofScientific

theorem claim_C6_witness :
    ansEx = (List.insertionSort answerScoreGE
        ((((process tkEx "q" "a blue" MAX_QUERY_LEN MAX_SEQ_LEN 128).toOption.getD
          []).enum.map (fun p => getBestAnswers ((fun _ => peakLogits 4) p.1)
            ((fun _ => peakLogits 4) p.1)
          p.2.origTokens p.2.tokenToOrigMap "a blue" p.1 none)).flatten)).take
        PREDICT_ANSWER_NUM ∧
    ansEx.length ≤ PREDICT_ANSWER_NUM ∧
    List.Pairwise (fun a b => b.score ≤ a.score) ansEx ∧
    ∀ a ∈ ansEx, NO_ANSWER_THRESHOLD ≤ a.score :=
  claim_C6 tkEx (fun _ => peakLogits 4) (fun _ => peakLogits 4) "q" "a blue" none
    ((process tkEx "q" "a blue" MAX_QUERY_LEN MAX_SEQ_LEN 128).toOption.getD [])
    ansEx (by decide) (by decide)

/-- C1: evaluation of the decoder at the failing input.  The passage blue
has a single original token, of index 0, so the only map entry is key 4
(position of the passage sub-word plus one) with value 0.  The candidate
pair (3, 3) satisfies every condition of the claim: position 3 is among
the top-5 start and end positions, both shifted lookups find a valid
entry, end is at or after start, and the length 1 is below
MAX_ANSWER_LEN; the claim therefore requires it to be retained with
score startLogits 3 + endLogits 3 = 20.  The source check
tokenToOrigMap[start + 1] && tokenToOrigMap[end + 1] (line 283) instead
evaluates the looked-up value 0 as falsy and drops the pair: the
candidate list and the final answer list are both empty. -/
theorem claim_C1 :
    (3 ∈ getBestIndex (peakLogits 3) ∧
      mapLookup fExBlue.tokenToOrigMap (3 + OUTPUT_OFFSET) = some 0 ∧
      (3 : Nat) ≥ 3 ∧ 3 - 3 + 1 < MAX_ANSWER_LEN ∧
      peakLogits 3 3 + peakLogits 3 3 = 20) ∧
    origResultsOf (peakLogits 3) (peakLogits 3) fExBlue.tokenToOrigMap = [] ∧
    findAnswers tkEx (fun _ => peakLogits 3) (fun _ => peakLogits 3)
      (some "q") (some "blue") none = .ok [] := by decide

/-- C3 counterexample: a full findAnswers run on the passage a blue with
logits peaked at the sub-word of blue returns the single answer blue
with startIndex 2 and endIndex 6, but the passage has length 6: the
claimed strict bound endIndex < length(context) fails (the last-token
branch of convertBack sets the end offset to the token start plus the
token length, one past the final character). -/
theorem claim_C3_counterexample :
    ansEx.length = 1 ∧
    (ansEx.getD 0 default).text = "blue" ∧
    (ansEx.getD 0 default).context = "a blue" ∧
    (ansEx.getD 0 default).startIndex = 2 ∧
    (ansEx.getD 0 default).endIndex = 6 ∧
    "a blue".length = 6 := by decide

end

/-! Consequences of token well-formedness, used to settle the convertBack
claim. -/

theorem wf_len_pos {ctx : List Char} {toks : List Token} (wf : WFTokens ctx toks)
    {i : Nat} (h : i < toks.length) : 0 < (tokAt toks i).text.data.length :=
  List.length_pos.mpr (wf.tok_nonempty i h)

theorem wf_index_lt {ctx : List Char} {toks : List Token} (wf : WFTokens ctx toks)
    {i : Nat} (h : i + 1 < toks.length) :
    (tokAt toks i).index < (tokAt toks (i + 1)).index := by
  have h1 := wf.gap_le i h
  have h2 := wf_len_pos wf (show i < toks.length by omega)
  unfold tokEnd at h1
  omega

theorem wf_index_mono {ctx : List Char} {toks : List Token} (wf : WFTokens ctx toks)
    (i : Nat) : ∀ j, i ≤ j → j < toks.length →
      (tokAt toks i).index ≤ (tokAt toks j).index := by
  intro j
  induction j with
  | zero =>
    intro h1 _
    have : i = 0 := by omega
    rw [this]
  | succ j ih =>
    intro h1 h2
    by_cases hcase : i = j + 1
    · rw [hcase]
    · exact le_trans (ih (by omega) (by omega)) (le_of_lt (wf_index_lt wf h2))

theorem wf_tokEnd_mono {ctx : List Char} {toks : List Token} (wf : WFTokens ctx toks)
    (i : Nat) : ∀ j, i ≤ j → j < toks.length → tokEnd toks i ≤ tokEnd toks j := by
  intro j
  induction j with
  | zero =>
    intro h1 _
    have : i = 0 := by omega
    rw [this]
  | succ j ih =>
    intro h1 h2
    by_cases hcase : i = j + 1
    · rw [hcase]
    · have hstep : tokEnd toks j ≤ tokEnd toks (j + 1) := by
        have hg := wf.gap_le j (by omega)
        unfold tokEnd at *
        omega
      exact le_trans (ih (by omega) (by omega)) hstep

theorem wf_tokEnd_le_length {ctx : List Char} {toks : List Token} (wf : WFTokens ctx toks)
    {j : Nat} (hj : j < toks.length) : tokEnd toks j ≤ ctx.length := by
  have h1 := wf_tokEnd_mono wf j (toks.length - 1) (by omega) (by omega)
  have h2 := wf.last_end (by omega)
  omega

/-! The character segment from one token's start to the next token's start
is the token text followed by whitespace; dropping whitespace recovers
exactly the token text. -/

theorem filter_dropWhile (l : List Char) :
    (l.dropWhile isWS).filter (fun c => !(isWS c)) = l.filter (fun c => !(isWS c)) := by
  induction l with
  | nil => rfl
  | cons a l ih =>
    by_cases ha : isWS a
    · rw [List.dropWhile_cons_of_pos ha, ih]
      have : (fun c => !(isWS c)) a = false := by simp [ha]
      simp [List.filter_cons, this]
    · rw [List.dropWhile_cons_of_neg ha]

/-- Trimming only removes whitespace, so it does not change the
whitespace-free residue. -/
theorem filter_trimList (l : List Char) :
    (trimList l).filter (fun c => !(isWS c)) = l.filter (fun c => !(isWS c)) := by
  unfold trimList
  rw [List.filter_reverse, filter_dropWhile, List.filter_reverse,
    List.reverse_reverse, filter_dropWhile]

theorem seg_one {ctx : List Char} {toks : List Token} (wf : WFTokens ctx toks)
    (i : Nat) (h : i + 1 < toks.length) :
    ((ctx.drop (tokAt toks i).index).take
        ((tokAt toks (i + 1)).index - (tokAt toks i).index)).filter (fun c => !(isWS c)) =
      (tokAt toks i).text.data := by
  have hgap := wf.gap_le i h
  have hlen : (tokAt toks (i + 1)).index - (tokAt toks i).index =
      (tokAt toks i).text.data.length + ((tokAt toks (i + 1)).index - tokEnd toks i) := by
    unfold tokEnd at *
    omega
  rw [hlen, List.take_add, List.filter_append]
  rw [wf.tok_matches i (by omega)]
  have h2 : (ctx.drop (tokAt toks i).index).drop (tokAt toks i).text.data.length =
      ctx.drop (tokEnd toks i) := by
    rw [List.drop_drop]
    unfold tokEnd
    rw [Nat.add_comm]
  rw [h2]
  have h3 : (tokAt toks i).text.data.filter (fun c => !(isWS c)) =
      (tokAt toks i).text.data :=
    List.filter_eq_self.mpr (fun c hc => by
      rw [wf.tok_no_ws i (by omega) c hc]
      rfl)
  have h4 : ((ctx.drop (tokEnd toks i)).take
      ((tokAt toks (i + 1)).index - tokEnd toks i)).filter (fun c => !(isWS c)) = [] :=
    List.filter_eq_nil_iff.mpr (fun c hc => by simp [wf.gap_ws i h c hc])
  rw [h3, h4, List.append_nil]

theorem seg_last {ctx : List Char} {toks : List Token} (wf : WFTokens ctx toks)
    (h0 : 0 < toks.length) :
    ((ctx.drop (tokAt toks (toks.length - 1)).index)).filter (fun c => !(isWS c)) =
      (tokAt toks (toks.length - 1)).text.data := by
  have hle := wf.last_end h0
  have hdecomp : ctx.drop (tokAt toks (toks.length - 1)).index =
      ((ctx.drop (tokAt toks (toks.length - 1)).index).take
        (tokAt toks (toks.length - 1)).text.data.length) ++
      ((ctx.drop (tokAt toks (toks.length - 1)).index).drop
        (tokAt toks (toks.length - 1)).text.data.length) :=
    (List.take_append_drop _ _).symm
  rw [hdecomp, List.filter_append]
  rw [wf.tok_matches (toks.length - 1) (by omega)]
  have h2 : (ctx.drop (tokAt toks (toks.length - 1)).index).drop
      (tokAt toks (toks.length - 1)).text.data.length = ctx.drop (tokEnd toks (toks.length - 1)) := by
    rw [List.drop_drop]
    unfold tokEnd
    rw [Nat.add_comm]
  rw [h2, hle, List.drop_length]
  have h3 : (tokAt toks (toks.length - 1)).text.data.filter (fun c => !(isWS c)) =
      (tokAt toks (toks.length - 1)).text.data :=
    List.filter_eq_self.mpr (fun c hc => by
      rw [wf.tok_no_ws (toks.length - 1) (by omega) c hc]
      rfl)
  rw [h3]
  simp

/-- Dropping whitespace from the character segment that covers tokens
si .. si + k (up to the next token's start, or to the end of the passage
for the final token) yields exactly the concatenation of those tokens'
texts. -/
theorem seg_filter {ctx : List Char} {toks : List Token} (wf : WFTokens ctx toks) :
    ∀ (k si : Nat), si + k < toks.length →
      ((ctx.drop (tokAt toks si).index).take
          ((if si + k + 1 < toks.length then (tokAt toks (si + k + 1)).index else ctx.length) -
            (tokAt toks si).index)).filter (fun c => !(isWS c)) =
        ((toks.drop si).take (k + 1)).flatMap (fun t => t.text.data) := by
  intro k
  induction k with
  | zero =>
    intro si hsi
    have hdrop : toks.drop si = tokAt toks si :: toks.drop (si + 1) := by
      rw [List.drop_eq_getElem_cons (show si < toks.length by omega)]
      unfold tokAt
      rw [List.getD_eq_getElem toks default (show si < toks.length by omega)]
    rw [hdrop, List.take_succ_cons, List.take_zero, List.flatMap_cons, List.flatMap_nil,
      List.append_nil]
    by_cases hnext : si + 0 + 1 < toks.length
    · rw [if_pos hnext]
      have := seg_one wf si (by omega)
      convert this using 4
    · rw [if_neg hnext]
      have hwhole : (ctx.drop (tokAt toks si).index).take
          (ctx.length - (tokAt toks si).index) = ctx.drop (tokAt toks si).index :=
        List.take_of_length_le (by rw [List.length_drop])
      rw [hwhole]
      have hsieq : si = toks.length - 1 := by omega
      rw [hsieq]
      exact seg_last wf (by omega)
  | succ k ih =>
    intro si hsi
    have hsi1 : si + 1 < toks.length := by omega
    have hab : (tokAt toks si).index ≤ (tokAt toks (si + 1)).index :=
      le_of_lt (wf_index_lt wf hsi1)
    have hbX : (tokAt toks (si + 1)).index ≤
        (if si + (k + 1) + 1 < toks.length then (tokAt toks (si + (k + 1) + 1)).index
         else ctx.length) := by
      by_cases hc : si + (k + 1) + 1 < toks.length
      · rw [if_pos hc]
        exact wf_index_mono wf (si + 1) (si + (k + 1) + 1) (by omega) hc
      · rw [if_neg hc]
        have h1 : (tokAt toks (si + 1)).index ≤ tokEnd toks (si + 1) := by
          unfold tokEnd
          omega
        exact le_trans h1 (wf_tokEnd_le_length wf hsi1)
    have hamount : (if si + (k + 1) + 1 < toks.length then (tokAt toks (si + (k + 1) + 1)).index
          else ctx.length) - (tokAt toks si).index =
        ((tokAt toks (si + 1)).index - (tokAt toks si).index) +
          ((if si + (k + 1) + 1 < toks.length then (tokAt toks (si + (k + 1) + 1)).index
            else ctx.length) - (tokAt toks (si + 1)).index) := by
      omega
    rw [hamount, List.take_add, List.filter_append]
    rw [seg_one wf si hsi1]
    have hdrop2 : (ctx.drop (tokAt toks si).index).drop
        ((tokAt toks (si + 1)).index - (tokAt toks si).index) =
        ctx.drop (tokAt toks (si + 1)).index := by
      rw [List.drop_drop]
      congr 1
      omega
    rw [hdrop2]
    have ihs := ih (si + 1) (by omega)
    have he1 : si + 1 + k = si + (k + 1) := by omega
    rw [he1] at ihs
    rw [ihs]
    have hdrop : toks.drop si = tokAt toks si :: toks.drop (si + 1) := by
      rw [List.drop_eq_getElem_cons (show si < toks.length by omega)]
      unfold tokAt
      rw [List.getD_eq_getElem toks default (show si < toks.length by omega)]
    rw [hdrop, List.take_succ_cons, List.flatMap_cons]

/-- C3 (amended): for well-formed tokenizer output over the passage, and
any candidate whose shifted start and stop positions look up valid
original-token indices si lteq ei, convertBack returns offsets with
startIndex lteq endIndex lteq length(passage) — endIndex may EQUAL the
length when the answer ends at the passage's final character, because
the last-token branch sets the end offset one past the final character,
which refutes the claimed strict bound — the text is the trimmed
re-slice of the passage over those offsets, and, ignoring whitespace,
the text equals the concatenation of the covered original tokens. -/
theorem claim_C3 (ctx : String) (toks : List Token) (m : List (Nat × Nat))
    (wf : WFTokens ctx.data toks) (start stop si ei : Nat)
    (hs : mapLookup m (start + OUTPUT_OFFSET) = some si)
    (he : mapLookup m (stop + OUTPUT_OFFSET) = some ei)
    (hsi : si ≤ ei) (hei : ei < toks.length) :
    (convertBack toks m start stop ctx).2.1 ≤ (convertBack toks m start stop ctx).2.2 ∧
    (convertBack toks m start stop ctx).2.2 ≤ ctx.length ∧
    (convertBack toks m start stop ctx).1 =
      jsTrim (jsSlice ctx (convertBack toks m start stop ctx).2.1
        ((convertBack toks m start stop ctx).2.2 + 1)) ∧
    (convertBack toks m start stop ctx).1.data.filter (fun c => !(isWS c)) =
      ((toks.drop si).take (ei - si + 1)).flatMap (fun t => t.text.data) := by
  have hcb : convertBack toks m start stop ctx =
      (jsTrim (jsSlice ctx (tokAt toks si).index
        ((if ei < toks.length - 1 then (tokAt toks (ei + 1)).index - 1
          else tokEnd toks ei) + 1)),
       (tokAt toks si).index,
       (if ei < toks.length - 1 then (tokAt toks (ei + 1)).index - 1
        else tokEnd toks ei)) := by
    unfold convertBack
    simp only [hs, he, Option.getD_some]
    rfl
  rw [hcb]
  dsimp only
  have hA : (tokAt toks si).index ≤ (tokAt toks ei).index :=
    wf_index_mono wf si ei hsi hei
  have hlenpos := wf_len_pos wf hei
  have hctxlen : ctx.length = ctx.data.length := rfl
  by_cases hcase : ei < toks.length - 1
  · have hei1 : ei + 1 < toks.length := by omega
    have hgap := wf.gap_le ei hei1
    have hnext_pos : (tokAt toks ei).index < (tokAt toks (ei + 1)).index :=
      wf_index_lt wf hei1
    have hnext_le : (tokAt toks (ei + 1)).index ≤ ctx.length := by
      have h1 : (tokAt toks (ei + 1)).index ≤ tokEnd toks (ei + 1) := by
        unfold tokEnd
        omega
      exact le_trans h1 (wf_tokEnd_le_length wf hei1)
    rw [if_pos hcase]
    refine ⟨by omega, by omega, rfl, ?_⟩
    show (jsTrim (jsSlice ctx (tokAt toks si).index _)).data.filter _ = _
    have hdata : (jsTrim (jsSlice ctx (tokAt toks si).index
        (((tokAt toks (ei + 1)).index - 1) + 1))).data =
        trimList ((ctx.data.drop (tokAt toks si).index).take
          (((tokAt toks (ei + 1)).index - 1) + 1 - (tokAt toks si).index)) := rfl
    rw [hdata, filter_trimList]
    have hplus : ((tokAt toks (ei + 1)).index - 1) + 1 = (tokAt toks (ei + 1)).index := by
      omega
    rw [hplus]
    have hseg := seg_filter wf (ei - si) si (by omega)
    have hk : si + (ei - si) = ei := by omega
    rw [hk] at hseg
    rw [if_pos hei1] at hseg
    exact hseg
  · rw [if_neg hcase]
    have heieq : ei = toks.length - 1 := by omega
    have hend : tokEnd toks ei = ctx.length := by
      rw [heieq]
      exact wf.last_end (by omega)
    have hAE : (tokAt toks si).index ≤ tokEnd toks ei := by
      unfold tokEnd
      omega
    refine ⟨hAE, le_of_eq hend, rfl, ?_⟩
    show (jsTrim (jsSlice ctx (tokAt toks si).index _)).data.filter _ = _
    have hdata : (jsTrim (jsSlice ctx (tokAt toks si).index (tokEnd toks ei + 1))).data =
        trimList ((ctx.data.drop (tokAt toks si).index).take
          (tokEnd toks ei + 1 - (tokAt toks si).index)) := rfl
    rw [hdata, filter_trimList]
    have hwhole : (ctx.data.drop (tokAt toks si).index).take
        (tokEnd toks ei + 1 - (tokAt toks si).index) =
        ctx.data.drop (tokAt toks si).index :=
      List.take_of_length_le (by rw [List.length_drop]; omega)
    rw [hwhole]
    have hseg := seg_filter wf (ei - si) si (by omega)
    have hk : si + (ei - si) = ei := by omega
    rw [hk] at hseg
    rw [if_neg (by omega)] at hseg
    have hwhole2 : (ctx.data.drop (tokAt toks si).index).take
        (ctx.data.length - (tokAt toks si).index) =
        ctx.data.drop (tokAt toks si).index :=
      List.take_of_length_le (by rw [List.length_drop])
    rw [hwhole2] at hseg
    exact hseg

theorem claim_C3_witness :
    (convertBack [⟨"a", 0⟩, ⟨"blue", 2⟩] [(4, 0), (5, 1)] 4 4 "a blue").2.1 ≤
      (convertBack [⟨"a", 0⟩, ⟨"blue", 2⟩] [(4, 0), (5, 1)] 4 4 "a blue").2.2 ∧
    (convertBack [⟨"a", 0⟩, ⟨"blue", 2⟩] [(4, 0), (5, 1)] 4 4 "a blue").2.2 ≤
      "a blue".length ∧
    (convertBack [⟨"a", 0⟩, ⟨"blue", 2⟩] [(4, 0), (5, 1)] 4 4 "a blue").1 =
      jsTrim (jsSlice "a blue"
        (convertBack [⟨"a", 0⟩, ⟨"blue", 2⟩] [(4, 0), (5, 1)] 4 4 "a blue").2.1
        ((convertBack [⟨"a", 0⟩, ⟨"blue", 2⟩] [(4, 0), (5, 1)] 4 4 "a blue").2.2 + 1)) ∧
    (convertBack [⟨"a", 0⟩, ⟨"blue", 2⟩] [(4, 0), (5, 1)] 4 4 "a blue").1.data.filter
        (fun c => !(isWS c)) =
      ((([⟨"a", 0⟩, ⟨"blue", 2⟩] : List Token).drop 1).take (1 - 1 + 1)).flatMap
        (fun t => t.text.data) :=
  claim_C3 "a blue" [⟨"a", 0⟩, ⟨"blue", 2⟩] [(4, 0), (5, 1)]
    ⟨by decide, by decide, by decide,
     by
      intro i hi
      simp at hi
      have h0 : i = 0 := by omega
      subst h0
      decide,
     by
      intro i hi
      simp at hi
      have h0 : i = 0 := by omega
      subst h0
      decide,
     by
      intro h0
      decide⟩
    4 4 1 1 (by decide) (by decide) (by decide) (by decide)

end QnA
